import Mathlib

/-
Verification of the `FakeListRemote` listing client
(`src/unnamed/part_000`), the fake implementation of the Realtime
Database `ListRemote` interface, together with a model of the chunked
delete orchestrator described by the specification.

JavaScript strings are modelled as lists of characters (`List Char`);
the JS string comparison `a > b` is the lexicographic order on the
character lists, which is exactly the `<` of `LinearOrder (List Char)`.
-/

/-- Value stored in the fake database (`this.data`): each leaf is a
number (the subtree's size) and each internal node is a JS object,
modelled as its list of key/value entries in the object's
`Object.keys` enumeration order. -/
inductive JSData where
  | leaf (n : Int) : JSData
  | obj (entries : List (List Char × JSData)) : JSData

/-- Default value used only to satisfy typeclass search. -/
instance : Inhabited JSData := ⟨.leaf 0⟩

/-- Truthiness of the intermediate value `d` in the JS code:
`undefined` and `null` (both modelled as `none`) and the number `0`
are falsy; every object and every other number is truthy. -/
def jsTruthy : Option JSData → Bool
  | none => false
  | some (.leaf n) => n != 0
  | some (.obj _) => true

/-- JS `Object.keys`: the keys of an object in enumeration order; a
number has no own enumerable properties, so its key list is empty. -/
def objectKeys : JSData → List (List Char)
  | .leaf _ => []
  | .obj entries => entries.map Prod.fst

/-- One iteration of the loop body of `FakeListRemote._dataAtpath`:
`if (d && p !== "") { if (typeof d === "number") d = null; else d = d[p]; }`. -/
def pathStep (d : Option JSData) (p : List Char) : Option JSData :=
  if jsTruthy d && !p.isEmpty then
    match d with
    | some (.obj entries) => List.lookup p entries
    | _ => none
  else d

/-- JS `s.split("/")` on a list of characters: the empty string splits
to `[""]`, and separators at the ends or adjacent to each other
produce empty segments, exactly as in JavaScript. -/
def splitSlash : List Char → List (List Char)
  | [] => [[]]
  | c :: rest =>
    if c = '/' then [] :: splitSlash rest
    else
      match splitSlash rest with
      | [] => [[c]]
      | s :: ss => (c :: s) :: ss

/-- Walk of `FakeListRemote._dataAtpath` over an explicit segment list. -/
def dataAtSegs (data : JSData) (segs : List (List Char)) : Option JSData :=
  segs.foldl pathStep (some data)

/-- `FakeListRemote._dataAtpath`: drop the first character of the path
(JS `path.slice(1)`), split the remainder on `/`, and walk the
structure one segment at a time. -/
def dataAtpath (data : JSData) (path : List Char) : Option JSData :=
  dataAtSegs data (splitSlash (path.drop 1))

/-- The `startAfter` filter of `listPath`:
`if (startAfter) { keys = keys.filter((key) => key > startAfter); }`.
An absent cursor and the empty string (which is falsy in JS) leave the
keys unfiltered. -/
def applyStartAfter (startAfter : Option (List Char)) (keys : List (List Char)) :
    List (List Char) :=
  match startAfter with
  | none => keys
  | some s => if s.isEmpty then keys else keys.filter (fun k => decide (s < k))

/-- Pure core of `FakeListRemote.listPath` after the timeout check:
resolve the path, and when the result is truthy take its
`Object.keys`, apply the `startAfter` filter first, and truncate with
`keys.slice(0, numChildren)` second; otherwise resolve with `[]`. -/
def listPathCore (data : JSData) (path : List Char) (numChildren : Nat)
    (startAfter : Option (List Char)) : List (List Char) :=
  let d := dataAtpath data path
  if jsTruthy d then
    (applyStartAfter startAfter
      (match d with
       | some v => objectKeys v
       | none => [])).take numChildren
  else []

/-- Timeout guard of `listPath`: `if (timeout && latency >= timeout)`.
An absent timeout and the number `0` are falsy, so the latency check
runs only for a non-zero timeout. -/
def timedOut (timeout : Option Nat) (latency : Nat) : Bool :=
  match timeout with
  | none => false
  | some t => if t = 0 then false else decide (latency ≥ t)

/-- `FakeListRemote.listPath`. The artificial delay makes the measured
round-trip `latency` nondeterministic, so it is an explicit parameter;
the promise either rejects with a timeout error or resolves with the
page of keys computed by `listPathCore`. -/
def listPath (data : JSData) (path : List Char) (numChildren : Nat)
    (startAfter : Option (List Char)) (timeout : Option Nat) (latency : Nat) :
    Except String (List (List Char)) :=
  if timedOut timeout latency then .error "timeout"
  else .ok (listPathCore data path numChildren startAfter)

/-- Key list that `listPath` paginates over at a path: the
`Object.keys` of the resolved value when it is truthy, `[]` otherwise. -/
def keysAt (data : JSData) (path : List Char) : List (List Char) :=
  let d := dataAtpath data path
  if jsTruthy d then
    (match d with
     | some v => objectKeys v
     | none => [])
  else []

/-- Cursor-discipline pagination over `listPath` for one path: request
a page, and while a full page of `numChildren` keys comes back,
request the next page with `startAfter` set to the page's last key
(absent on the first call). The list collects every page received,
the final short page included. -/
def listPages (data : JSData) (path : List Char) (n : Nat) :
    Option (List Char) → Nat → List (List (List Char))
  | _, 0 => []
  | c, fuel + 1 =>
    let page := listPathCore data path n c
    if page.length < n then [page]
    else
      match page.getLast? with
      | none => [page]
      | some last => page :: listPages data path n (some last) fuel

/-- Admissible cursor: either absent or a non-empty key (the empty
string is falsy in JS and is treated by `listPath` as no cursor). -/
def goodCursor : Option (List Char) → Prop
  | none => True
  | some s => s ≠ []

/-- Cursor-discipline pagination over an abstract key list, with the
page for cursor `c` being `(applyStartAfter c K).take n`, exactly the
page `listPath` serves from its key list. Used to reason about
`listPages` and, at segment paths, about the orchestrator's pager. -/
def pagesOfKeys (K : List (List Char)) (n : Nat) :
    Option (List Char) → Nat → List (List (List Char))
  | _, 0 => []
  | c, fuel + 1 =>
    let page := (applyStartAfter c K).take n
    if page.length < n then [page]
    else
      match page.getLast? with
      | none => [page]
      | some last => page :: pagesOfKeys K n (some last) fuel

/-- Key list served at a segment path, the segment-path analogue of
`keysAt`. -/
def keysAtSegs (data : JSData) (segs : List (List Char)) : List (List Char) :=
  let d := dataAtSegs data segs
  if jsTruthy d then
    (match d with
     | some v => objectKeys v
     | none => [])
  else []

/-- Concrete store of the `FakeListRemote` test: root with the four
children keyed `"1"`, `"2"`, `"3"`, `"4"`. -/
def fakeDb4 : JSData :=
  .obj [(['1'], .leaf 1), (['2'], .leaf 2), (['3'], .leaf 3), (['4'], .leaf 4)]

/-- Store whose root enumerates its keys out of lexicographic order,
as a JS object literal `{b: 1, a: 2}` does. -/
def fakeDbBA : JSData := .obj [(['b'], .leaf 1), (['a'], .leaf 2)]

/-- Store whose root has a single child keyed by the empty string, as
the JS object literal `{"": 1}` does. -/
def fakeDbEmptyKey : JSData := .obj [([], .leaf 1)]

example : listPath fakeDb4 ['/'] 4 none none 0 =
    .ok [['1'], ['2'], ['3'], ['4']] := rfl
example : listPath fakeDb4 ['/'] 2 none none 0 = .ok [['1'], ['2']] := rfl
example : listPath fakeDb4 ['/'] 4 (some ['2']) none 0 = .ok [['3'], ['4']] := rfl
example : listPath fakeDb4 ['/'] 4 (some ['4']) none 0 = .ok [] := rfl
example : listPath fakeDb4 ['/'] 1 (some ['3']) none 0 = .ok [['4']] := rfl
example : listPath fakeDb4 ['/'] 3 (some ['4']) none 0 = .ok [] := rfl
example : listPathCore fakeDbBA ['/'] 2 none = [['b'], ['a']] := rfl
example : (listPages fakeDbBA ['/'] 1 none 3).flatten = [['b']] := by decide
example : keysAt fakeDbBA ['/'] = [['b'], ['a']] := by decide
example : listPathCore fakeDbEmptyKey ['/'] 1 (some []) = [[]] := by decide
example : dataAtpath fakeDb4 ['/', 'x'] = none := rfl
example : listPath fakeDb4 ['/'] 4 none (some 0) 5 =
    .ok [['1'], ['2'], ['3'], ['4']] := rfl
example : listPath fakeDb4 ['/'] 4 none (some 5) 5 = .error "timeout" := rfl

/-- Modelled from the spec: the delete transport result classification
of sections 4.3 and 4.4 (success, payload too large, retryable
transient failure, fatal failure); the delete transport implementation
is not among the sources. -/
inductive DResult where
  | success : DResult
  | payloadTooLarge : DResult
  | transient : DResult
  | fatal : DResult

/-- Modelled from the spec: progress events of an orchestrator run
(section 4.5 and the progress sink of section 6); the orchestrator
implementation is not among the sources. A path is the ordered list
of its segments, as in the specification's data model. -/
inductive OEvent where
  | attempt (p : List (List Char)) : OEvent
  | deleted (p : List (List Char)) : OEvent
  | listCall (p : List (List Char)) : OEvent
  | fannedOut (p : List (List Char)) (count : Nat) : OEvent
  | retried (p : List (List Char)) : OEvent
  | failed (p : List (List Char)) : OEvent
  deriving DecidableEq

/-- Modelled from the spec: the Chunked Delete Orchestrator of section
4.5; its implementation is not among the sources. Jobs are (path,
attempt count) pairs on a single work queue. A popped job is attempted
as a direct delete; success or a fatal failure terminates it, a
retryable failure re-enqueues it with an incremented attempt count
until `maxAttempts`, and a `payloadTooLarge` result fans the path out:
the Cursor Pager enumerates the children (one listing call per page,
`pfuel` bounding the page count) and each child is enqueued as a new
job. `fuel` bounds the number of processed jobs; the result is the
emitted event trace. -/
def runOrch (del : List (List Char) → DResult) (data : JSData)
    (n maxAttempts pfuel : Nat) :
    List (List (List Char) × Nat) → Nat → List OEvent
  | [], _ => []
  | _ :: _, 0 => []
  | (p, a) :: rest, fuel + 1 =>
    match del p with
    | .success =>
      .attempt p :: .deleted p :: runOrch del data n maxAttempts pfuel rest fuel
    | .fatal =>
      .attempt p :: .failed p :: runOrch del data n maxAttempts pfuel rest fuel
    | .transient =>
      if a + 1 < maxAttempts then
        .attempt p :: .retried p ::
          runOrch del data n maxAttempts pfuel (rest ++ [(p, a + 1)]) fuel
      else
        .attempt p :: .failed p :: runOrch del data n maxAttempts pfuel rest fuel
    | .payloadTooLarge =>
      let pages := pagesOfKeys (keysAtSegs data p) n none pfuel
      .attempt p ::
        (pages.map (fun _ => OEvent.listCall p) ++
          (.fannedOut p pages.flatten.length ::
            runOrch del data n maxAttempts pfuel
              (rest ++ pages.flatten.map (fun k => (p ++ [k], 0))) fuel))

/-- Well-formed store: every object node has strictly increasing,
non-empty keys, as the specification's data model mandates (unique
sibling keys in lexicographic order). -/
inductive WF : JSData → Prop where
  | leaf (n : Int) : WF (.leaf n)
  | obj (entries : List (List Char × JSData))
      (hsort : List.Pairwise (· < ·) (entries.map Prod.fst))
      (hne : ∀ k ∈ entries.map Prod.fst, k ≠ ([] : List Char))
      (hval : ∀ kv ∈ entries, WF kv.2) : WF (.obj entries)

/-- Segment-path order: `SegPre a b` when the segment list `a` is an
initial run of the segment list `b`. -/
def SegPre (a b : List (List Char)) : Prop := ∃ t, a ++ t = b

/-- Two segment paths neither of which extends the other. -/
def SegApart (a b : List (List Char)) : Prop := ¬ SegPre a b ∧ ¬ SegPre b a

/-- Concrete delete transport for exercising the orchestrator: the
root is too large to delete directly, every deeper path succeeds. -/
def delRootTooLarge : List (List Char) → DResult
  | [] => DResult.payloadTooLarge
  | _ :: _ => DResult.success

/-- The startAfter filter leaves the empty key list empty. -/
theorem applyStartAfter_nil (sa : Option (List Char)) : applyStartAfter sa [] = [] := by
  cases sa with
  | none => rfl
  | some s => simp [applyStartAfter]

/-- For a non-empty cursor the startAfter filter keeps exactly the keys
strictly greater than the cursor. -/
theorem applyStartAfter_of_ne (s : List Char) (hs : s ≠ []) (K : List (List Char)) :
    applyStartAfter (some s) K = K.filter (fun k => decide (s < k)) := by
  cases s with
  | nil => exact absurd rfl hs
  | cons a t => rfl

/-- The startAfter filter returns a sublist of the key list. -/
theorem applyStartAfter_sublist (sa : Option (List Char)) (K : List (List Char)) :
    (applyStartAfter sa K).Sublist K := by
  cases sa with
  | none => exact List.Sublist.refl K
  | some s =>
    cases s with
    | nil => exact List.Sublist.refl K
    | cons a t =>
      rw [applyStartAfter_of_ne _ (by simp)]
      exact List.filter_sublist K

/-- A page of `listPath` is the startAfter filter of the key list at
the path, truncated to `numChildren` entries. -/
theorem listPathCore_eq_page (data : JSData) (path : List Char) (n : Nat)
    (sa : Option (List Char)) :
    listPathCore data path n sa = (applyStartAfter sa (keysAt data path)).take n := by
  simp only [listPathCore, keysAt]
  cases h : jsTruthy (dataAtpath data path) <;> simp [h, applyStartAfter_nil]

/-- In a strictly sorted key list, the keys strictly greater than the
entry at index `i` are exactly the entries after index `i`. -/
theorem filter_gt_sorted :
    ∀ (K : List (List Char)), List.Pairwise (· < ·) K →
      ∀ i (h : i < K.length),
        K.filter (fun k => decide (K[i] < k)) = K.drop (i + 1) := by
  intro K
  induction K with
  | nil => intro _ i h; exact absurd h (by simp)
  | cons a K ih =>
    intro hp i h
    rcases List.pairwise_cons.mp hp with ⟨ha, hK⟩
    match i with
    | 0 =>
      simp only [List.getElem_cons_zero, List.drop_succ_cons, List.drop_zero]
      rw [List.filter_cons, if_neg (by simp)]
      exact List.filter_eq_self.mpr fun b hb => decide_eq_true (ha b hb)
    | i + 1 =>
      simp only [List.getElem_cons_succ, List.drop_succ_cons]
      have hi : i < K.length := by simpa using h
      have hmem : K[i] ∈ K := List.getElem_mem hi
      rw [List.filter_cons, if_neg ?_, ih hK i hi]
      simp only [decide_eq_true_eq]
      exact fun hcon => absurd (lt_trans (ha _ hmem) hcon) (lt_irrefl a)

/-- Every element of a strictly sorted non-empty list is at most its
last element. -/
theorem mem_le_getLast :
    ∀ (P : List (List Char)), List.Pairwise (· < ·) P →
      ∀ (h : P ≠ []) (j : List Char), j ∈ P → j ≤ P.getLast h := by
  intro P
  induction P with
  | nil => intro _ h; exact absurd rfl h
  | cons a P ih =>
    intro hp h j hj
    rcases List.pairwise_cons.mp hp with ⟨ha, hP⟩
    cases P with
    | nil =>
      rcases List.mem_cons.mp hj with hj | hj
      · subst hj; simp [List.getLast]
      · exact absurd hj (by simp)
    | cons b Q =>
      rw [List.getLast_cons (by simp)]
      rcases List.mem_cons.mp hj with hj | hj
      · subst hj
        exact le_of_lt (ha _ (List.getLast_mem (by simp)))
      · exact ih hP (by simp) j hj

/-- Filtering strictly above a key already in the filtered set gives
the same result whether applied to the full key list or to the
filtered one. -/
theorem filter_gt_last_eq (K : List (List Char)) (c : Option (List Char))
    (hc : goodCursor c) (last : List Char)
    (hmem : last ∈ applyStartAfter c K) :
    K.filter (fun k => decide (last < k)) =
      (applyStartAfter c K).filter (fun k => decide (last < k)) := by
  cases c with
  | none => rfl
  | some s =>
    rw [applyStartAfter_of_ne s hc] at hmem ⊢
    have hs : s < last := of_decide_eq_true (List.mem_filter.mp hmem).2
    rw [List.filter_filter]
    refine (List.filter_congr ?_).symm
    intro a _
    by_cases h : last < a
    · simp [h, lt_trans hs h]
    · simp [h]

/-- After a full page, the keys strictly greater than the page's last
key form exactly the remainder of the filtered key list. -/
theorem advance_cursor (K : List (List Char)) (hK : List.Pairwise (· < ·) K)
    (n : Nat) (c : Option (List Char)) (hc : goodCursor c) (last : List Char)
    (hlast : ((applyStartAfter c K).take n).getLast? = some last)
    (hfull : ¬ ((applyStartAfter c K).take n).length < n) :
    last ∈ applyStartAfter c K ∧
      K.filter (fun k => decide (last < k)) = (applyStartAfter c K).drop n := by
  set F := applyStartAfter c K with hF
  have hFs : List.Pairwise (· < ·) F :=
    List.Pairwise.sublist (applyStartAfter_sublist c K) hK
  have hnle : n ≤ F.length := by
    rw [List.length_take] at hfull; omega
  have hn : 0 < n := by
    by_contra hn0
    have : n = 0 := by omega
    subst this
    simp at hlast
  have hlen : (F.take n).length = n := by
    rw [List.length_take]; omega
  have hidx : n - 1 < F.length := by omega
  have hgetl : F[n - 1] = last := by
    rw [List.getLast?_eq_getElem?, hlen, List.getElem?_take] at hlast
    rw [if_pos (by omega)] at hlast
    rw [List.getElem?_eq_getElem hidx] at hlast
    exact Option.some.inj hlast
  have hmem : last ∈ F := hgetl ▸ List.getElem_mem hidx
  refine ⟨hmem, ?_⟩
  rw [filter_gt_last_eq K c hc last hmem, ← hF, ← hgetl,
    filter_gt_sorted F hFs (n - 1) hidx]
  congr 1
  omega

/-- With enough fuel, cursor pagination over a strictly sorted key
list with non-empty keys returns pages concatenating to exactly the
filtered key list. -/
theorem pagesOfKeys_flatten_eq (K : List (List Char)) (hK : List.Pairwise (· < ·) K)
    (hne : ∀ k ∈ K, k ≠ []) (n : Nat) (hn : 0 < n) :
    ∀ (fuel : Nat) (c : Option (List Char)), goodCursor c →
      (applyStartAfter c K).length < fuel →
      (pagesOfKeys K n c fuel).flatten = applyStartAfter c K := by
  intro fuel
  induction fuel with
  | zero => intro c _ hlen; exact absurd hlen (by omega)
  | succ fuel ih =>
    intro c hc hlen
    simp only [pagesOfKeys]
    set F := applyStartAfter c K with hF
    by_cases hshort : (F.take n).length < n
    · rw [if_pos hshort]
      have hFle : F.length < n := by
        rw [List.length_take] at hshort; omega
      rw [List.take_of_length_le (by omega)]
      simp
    · rw [if_neg hshort]
      cases hlast : (F.take n).getLast? with
      | none =>
        exfalso
        have hpne : F.take n ≠ [] := by
          intro hnil
          rw [hnil] at hshort
          simp at hshort
          omega
        rw [List.getLast?_eq_getLast _ hpne] at hlast
        exact Option.noConfusion hlast
      | some last =>
        simp only [List.flatten_cons]
        obtain ⟨hmem, hdrop⟩ := advance_cursor K hK n c hc last hlast hshort
        have hlast_ne : last ≠ [] :=
          hne last (List.Sublist.mem hmem (applyStartAfter_sublist c K))
        have hFlast : applyStartAfter (some last) K = F.drop n := by
          rw [applyStartAfter_of_ne last hlast_ne, hdrop]
        have hnle : n ≤ F.length := by
          rw [List.length_take] at hshort; omega
        have hlen2 : (applyStartAfter (some last) K).length < fuel := by
          rw [hFlast, List.length_drop]; omega
        rw [ih (some last) hlast_ne hlen2, hFlast, List.take_append_drop]

/-- With any amount of fuel, the keys observed by cursor pagination
over a strictly sorted key list with non-empty keys form a sublist of
the filtered key list (so no key is ever observed twice). -/
theorem pagesOfKeys_flatten_sublist (K : List (List Char))
    (hK : List.Pairwise (· < ·) K) (hne : ∀ k ∈ K, k ≠ []) (n : Nat) :
    ∀ (fuel : Nat) (c : Option (List Char)), goodCursor c →
      ((pagesOfKeys K n c fuel).flatten).Sublist (applyStartAfter c K) := by
  intro fuel
  induction fuel with
  | zero => intro c _; exact List.nil_sublist _
  | succ fuel ih =>
    intro c hc
    simp only [pagesOfKeys]
    set F := applyStartAfter c K with hF
    by_cases hshort : (F.take n).length < n
    · rw [if_pos hshort]; simpa using List.take_sublist n F
    · rw [if_neg hshort]
      cases hlast : (F.take n).getLast? with
      | none => simpa using List.take_sublist n F
      | some last =>
        simp only [List.flatten_cons]
        obtain ⟨hmem, hdrop⟩ := advance_cursor K hK n c hc last hlast hshort
        have hlast_ne : last ≠ [] :=
          hne last (List.Sublist.mem hmem (applyStartAfter_sublist c K))
        have h2 := ih (some last) hlast_ne
        rw [applyStartAfter_of_ne last hlast_ne, hdrop] at h2
        have h3 := List.Sublist.append_left h2 (F.take n)
        rw [List.take_append_drop] at h3
        exact h3

/-- After a page shorter than `numChildren`, the page for the cursor
at its last key is empty: a short page signals exhaustion. -/
theorem next_page_empty (K : List (List Char)) (hK : List.Pairwise (· < ·) K)
    (hne : ∀ k ∈ K, k ≠ []) (n : Nat) (c : Option (List Char))
    (hc : goodCursor c) (last : List Char)
    (hshort : ((applyStartAfter c K).take n).length < n)
    (hlast : ((applyStartAfter c K).take n).getLast? = some last) :
    (applyStartAfter (some last) K).take n = [] := by
  set F := applyStartAfter c K with hF
  have hFs : List.Pairwise (· < ·) F :=
    List.Pairwise.sublist (applyStartAfter_sublist c K) hK
  have hFle : F.length < n := by
    rw [List.length_take] at hshort; omega
  have hpage : F.take n = F := List.take_of_length_le (by omega)
  rw [hpage] at hlast
  have hFne : F ≠ [] := by
    intro hnil; rw [hnil] at hlast; exact Option.noConfusion hlast
  have hidx : F.length - 1 < F.length := by
    cases hF2 : F with
    | nil => exact absurd hF2 hFne
    | cons a t => simp [hF2]
  have hgetl : F[F.length - 1] = last := by
    rw [List.getLast?_eq_getElem?, List.getElem?_eq_getElem hidx] at hlast
    exact Option.some.inj hlast
  have hmem : last ∈ F := hgetl ▸ List.getElem_mem hidx
  have hlast_ne : last ≠ [] :=
    hne last (List.Sublist.mem hmem (applyStartAfter_sublist c K))
  rw [applyStartAfter_of_ne last hlast_ne, filter_gt_last_eq K c hc last hmem,
    ← hF, ← hgetl, filter_gt_sorted F hFs (F.length - 1) hidx]
  have hlen1 : F.length - 1 + 1 = F.length := by omega
  rw [hlen1, List.drop_length]
  simp

/-- Every key of the page after a page (under the cursor discipline)
is strictly greater than every key of that page. -/
theorem next_page_after (K : List (List Char)) (hK : List.Pairwise (· < ·) K)
    (hne : ∀ k ∈ K, k ≠ []) (n : Nat) (c : Option (List Char))
    (last : List Char)
    (hlast : ((applyStartAfter c K).take n).getLast? = some last) :
    ∀ k ∈ (applyStartAfter (some last) K).take n,
      ∀ j ∈ (applyStartAfter c K).take n, j < k := by
  set F := applyStartAfter c K with hF
  have hFs : List.Pairwise (· < ·) F :=
    List.Pairwise.sublist (applyStartAfter_sublist c K) hK
  have hpne : F.take n ≠ [] := by
    intro hnil; rw [hnil] at hlast; exact Option.noConfusion hlast
  have hlastl : (F.take n).getLast hpne = last := by
    rw [List.getLast?_eq_getLast _ hpne] at hlast
    exact Option.some.inj hlast
  have hmemp : last ∈ F.take n := hlastl ▸ List.getLast_mem hpne
  have hmem : last ∈ F := List.Sublist.mem hmemp (List.take_sublist n F)
  have hlast_ne : last ≠ [] :=
    hne last (List.Sublist.mem hmem (applyStartAfter_sublist c K))
  intro k hk j hj
  have hk2 : k ∈ applyStartAfter (some last) K :=
    List.Sublist.mem hk (List.take_sublist n _)
  rw [applyStartAfter_of_ne last hlast_ne] at hk2
  have hlk : last < k := of_decide_eq_true (List.mem_filter.mp hk2).2
  have hps : List.Pairwise (· < ·) (F.take n) :=
    List.Pairwise.sublist (List.take_sublist n F) hFs
  have hjle : j ≤ (F.take n).getLast hpne := mem_le_getLast _ hps hpne j hj
  rw [hlastl] at hjle
  exact lt_of_le_of_lt hjle hlk

/-- The pagination of `listPath` at a path is the abstract pagination
of the key list at that path. -/
theorem listPages_eq_pagesOfKeys (data : JSData) (path : List Char) (n : Nat) :
    ∀ (fuel : Nat) (c : Option (List Char)),
      listPages data path n c fuel = pagesOfKeys (keysAt data path) n c fuel := by
  intro fuel
  induction fuel with
  | zero => intro c; rfl
  | succ fuel ih =>
    intro c
    rw [listPages, pagesOfKeys, listPathCore_eq_page]
    by_cases h : (List.take n (applyStartAfter c (keysAt data path))).length < n
    · rw [if_pos h, if_pos h]
    · rw [if_neg h, if_neg h]
      cases hl : (List.take n (applyStartAfter c (keysAt data path))).getLast? with
      | none => rfl
      | some last =>
        exact congrArg
          (fun r => List.take n (applyStartAfter c (keysAt data path)) :: r)
          (ih (some last))

/-- C1 counterexample: the empty string is a legal startAfter cursor,
but it is falsy in JS, so the filter is skipped; on a store with an
empty-string child key the result then contains a key that is not
strictly greater than the cursor and differs from the first
`numChildren` keys of the filtered key set. -/
theorem listPath_empty_cursor_unfiltered_cex :
    ([] : List Char) ∈ listPathCore fakeDbEmptyKey ['/'] 1 (some []) ∧
      ¬ (([] : List Char) < ([] : List Char)) ∧
      listPathCore fakeDbEmptyKey ['/'] 1 (some []) ≠
        ((keysAt fakeDbEmptyKey ['/']).filter
          (fun k => decide (([] : List Char) < k))).take 1 := by
  refine ⟨by decide, ?_, by decide⟩
  exact lt_irrefl _

/-- C1 (amended to non-empty cursors): for every non-empty startAfter
cursor, `listPath` returns only keys strictly greater than the cursor,
at most `numChildren` of them, and the result is the first
`numChildren` keys of the filtered key set (filter before limit). -/
theorem listPath_filter_before_limit (data : JSData) (path : List Char)
    (n : Nat) (_hn : 0 < n) (s : List Char) (hs : s ≠ []) :
    (∀ k ∈ listPathCore data path n (some s), s < k) ∧
      (listPathCore data path n (some s)).length ≤ n ∧
      listPathCore data path n (some s) =
        ((keysAt data path).filter (fun k => decide (s < k))).take n := by
  have heq : listPathCore data path n (some s) =
      ((keysAt data path).filter (fun k => decide (s < k))).take n := by
    rw [listPathCore_eq_page, applyStartAfter_of_ne s hs]
  refine ⟨?_, ?_, heq⟩
  · intro k hk
    rw [heq] at hk
    have hmem := List.Sublist.mem hk (List.take_sublist n _)
    exact of_decide_eq_true (List.mem_filter.mp hmem).2
  · rw [heq]
    exact List.length_take_le n _

/-- Witness for the amended C1 at the concrete four-child store. -/
theorem listPath_filter_before_limit_app :
    (0 < 4) ∧ ((['2'] : List Char) ≠ []) ∧
      ((∀ k ∈ listPathCore fakeDb4 ['/'] 4 (some ['2']), ['2'] < k) ∧
        (listPathCore fakeDb4 ['/'] 4 (some ['2'])).length ≤ 4 ∧
        listPathCore fakeDb4 ['/'] 4 (some ['2']) =
          ((keysAt fakeDb4 ['/']).filter (fun k => decide (['2'] < k))).take 4) :=
  ⟨by decide, by decide,
    listPath_filter_before_limit fakeDb4 ['/'] 4 (by decide) ['2'] (by decide)⟩

/-- C4: a path that does not resolve, or that resolves to a leaf
value, lists as empty: the call resolves with `[]` and never rejects. -/
theorem listPath_missing_or_leaf_empty (data : JSData) (path : List Char)
    (n : Nat) (sa : Option (List Char)) (latency : Nat)
    (h : dataAtpath data path = none ∨
      ∃ v, dataAtpath data path = some (.leaf v)) :
    listPath data path n sa none latency = .ok [] := by
  have hcore : listPathCore data path n sa = [] := by
    simp only [listPathCore]
    rcases h with h | ⟨v, h⟩
    · rw [h]; rfl
    · rw [h]
      by_cases hv : jsTruthy (some (.leaf v))
      · simp [hv, objectKeys, applyStartAfter_nil]
      · simp [hv]
  simp [listPath, timedOut, hcore]

/-- Witness for C4 at a non-existent path of the four-child store. -/
theorem listPath_missing_or_leaf_empty_app :
    (dataAtpath fakeDb4 ['/', 'x'] = none ∨
      ∃ v, dataAtpath fakeDb4 ['/', 'x'] = some (.leaf v)) ∧
      listPath fakeDb4 ['/', 'x'] 3 none none 0 = .ok [] :=
  ⟨Or.inl rfl, listPath_missing_or_leaf_empty fakeDb4 ['/', 'x'] 3 none 0 (Or.inl rfl)⟩

/-- C5 counterexample: a provided timeout of `0` is falsy in JS, so a
round-trip at least as long as the timeout still resolves with data
instead of failing with a timeout error. -/
theorem listPath_timeout_zero_cex :
    5 ≥ 0 ∧ listPath fakeDb4 ['/'] 4 none (some 0) 5 =
      .ok [['1'], ['2'], ['3'], ['4']] :=
  ⟨Nat.zero_le 5, rfl⟩

/-- C5 (amended to positive timeouts): with a positive timeout, a
round-trip at least as long as the timeout rejects with a timeout
error and returns no data, and the call returns the key page exactly
when it completes within the timeout. -/
theorem listPath_timeout_positive (data : JSData) (path : List Char)
    (n : Nat) (sa : Option (List Char)) (t latency : Nat) (ht : 0 < t) :
    (latency ≥ t → listPath data path n sa (some t) latency = .error "timeout") ∧
      (latency < t → listPath data path n sa (some t) latency =
        .ok (listPathCore data path n sa)) := by
  have ht0 : ¬ t = 0 := by omega
  constructor
  · intro hl
    simp [listPath, timedOut, ht0, hl]
  · intro hl
    simp [listPath, timedOut, ht0, Nat.not_le.mpr hl]

/-- Witness for the amended C5 at the concrete four-child store. -/
theorem listPath_timeout_positive_app :
    (0 < 5) ∧
      (7 ≥ 5 → listPath fakeDb4 ['/'] 4 none (some 5) 7 = .error "timeout") ∧
      (7 < 5 → listPath fakeDb4 ['/'] 4 none (some 5) 7 =
        .ok (listPathCore fakeDb4 ['/'] 4 none)) :=
  ⟨by decide, (listPath_timeout_positive fakeDb4 ['/'] 4 none 5 7 (by decide)).1,
    (listPath_timeout_positive fakeDb4 ['/'] 4 none 5 7 (by decide)).2⟩

/-- C6: the six concrete listing scenarios on the store whose root has
exactly the four children keyed `"1"`, `"2"`, `"3"`, `"4"`. -/
theorem listPath_concrete_scenarios :
    listPath fakeDb4 ['/'] 4 none none 0 = .ok [['1'], ['2'], ['3'], ['4']] ∧
      listPath fakeDb4 ['/'] 2 none none 0 = .ok [['1'], ['2']] ∧
      listPath fakeDb4 ['/'] 4 (some ['2']) none 0 = .ok [['3'], ['4']] ∧
      listPath fakeDb4 ['/'] 4 (some ['4']) none 0 = .ok [] ∧
      listPath fakeDb4 ['/'] 1 (some ['3']) none 0 = .ok [['4']] ∧
      listPath fakeDb4 ['/'] 3 (some ['4']) none 0 = .ok [] :=
  ⟨rfl, rfl, rfl, rfl, rfl, rfl⟩

/-- C8: with the timeout absent or equal to `0`, the timeout check is
skipped (both are falsy), so the call always resolves with the key
page no matter how large the measured latency is. -/
theorem listPath_no_timeout_resolves (data : JSData) (path : List Char)
    (n : Nat) (sa : Option (List Char)) (timeout : Option Nat) (latency : Nat)
    (h : timeout = none ∨ timeout = some 0) :
    listPath data path n sa timeout latency = .ok (listPathCore data path n sa) := by
  rcases h with h | h <;> subst h <;> simp [listPath, timedOut]

/-- Witness for C8 with timeout `0` and a huge latency. -/
theorem listPath_no_timeout_resolves_app :
    ((some 0 : Option Nat) = none ∨ (some 0 : Option Nat) = some 0) ∧
      listPath fakeDb4 ['/'] 4 none (some 0) 1000000 =
        .ok (listPathCore fakeDb4 ['/'] 4 none) :=
  ⟨Or.inr rfl,
    listPath_no_timeout_resolves fakeDb4 ['/'] 4 none (some 0) 1000000 (Or.inr rfl)⟩

/-- Empty path segments leave the walk of `_dataAtpath` unchanged. -/
theorem pathStep_empty (d : Option JSData) : pathStep d [] = d := by
  simp [pathStep]

/-- The walk of `_dataAtpath` only depends on the non-empty segments. -/
theorem foldl_pathStep_filter :
    ∀ (segs : List (List Char)) (d : Option JSData),
      segs.foldl pathStep d = (segs.filter (fun s => !s.isEmpty)).foldl pathStep d := by
  intro segs
  induction segs with
  | nil => intro d; rfl
  | cons s rest ih =>
    intro d
    cases s with
    | nil => simp [List.foldl_cons, List.filter_cons, pathStep_empty, ih]
    | cons a t => simp [List.foldl_cons, List.filter_cons, ih]

/-- C9: two paths with the same non-empty segments (for example a path
with trailing or repeated slashes and its normalized form) list
identically, and the path `"/"` always resolves to the root. -/
theorem listPath_ignores_empty_segments (data : JSData) (p q : List Char)
    (n : Nat) (sa : Option (List Char)) (t : Option Nat) (lat : Nat)
    (h : (splitSlash (p.drop 1)).filter (fun s => !s.isEmpty) =
      (splitSlash (q.drop 1)).filter (fun s => !s.isEmpty)) :
    listPath data p n sa t lat = listPath data q n sa t lat ∧
      dataAtpath data ['/'] = some data := by
  have hd : dataAtpath data p = dataAtpath data q := by
    unfold dataAtpath dataAtSegs
    rw [foldl_pathStep_filter, h, ← foldl_pathStep_filter]
  constructor
  · simp only [listPath, listPathCore]
    rw [hd]
  · simp [dataAtpath, dataAtSegs, splitSlash, pathStep]

/-- Witness for C9: the path `"/a/"` lists like `"/a"`. -/
theorem listPath_ignores_empty_segments_app :
    ((splitSlash (['/', 'a', '/'].drop 1)).filter (fun s => !s.isEmpty) =
      (splitSlash (['/', 'a'].drop 1)).filter (fun s => !s.isEmpty)) ∧
      (listPath fakeDb4 ['/', 'a', '/'] 2 none none 0 =
        listPath fakeDb4 ['/', 'a'] 2 none none 0 ∧
       dataAtpath fakeDb4 ['/'] = some fakeDb4) :=
  ⟨by decide,
    listPath_ignores_empty_segments fakeDb4 ['/', 'a', '/'] ['/', 'a'] 2 none none 0
      (by decide)⟩

/-- C10: the empty string as startAfter cursor is falsy in JS and is
treated exactly like an absent cursor: the call returns the
unfiltered first page. -/
theorem listPath_empty_cursor_eq_absent (data : JSData) (path : List Char)
    (n : Nat) (t : Option Nat) (lat : Nat) :
    listPath data path n (some []) t lat = listPath data path n none t lat := rfl

/-- C2 counterexample: on a store whose root enumerates keys out of
order (JS object `{b: 1, a: 2}`), cursor pagination with one key per
page misses the key `"a"`: the pages do not concatenate to the key
set. -/
theorem pagination_unsorted_gap_cex :
    (listPages fakeDbBA ['/'] 1 none 3).flatten ≠ keysAt fakeDbBA ['/'] := by
  decide

/-- C2 (amended to paths whose stored key enumeration is strictly
increasing with non-empty keys): cursor pagination visits the full key
set exactly once, with no gaps and no duplicates, and a page shorter
than `numChildren` signals exhaustion — the page at the cursor of its
last key is empty. -/
theorem pagination_visits_all_once (data : JSData) (path : List Char)
    (n : Nat) (hn : 0 < n)
    (hK : List.Pairwise (· < ·) (keysAt data path))
    (hne : ∀ k ∈ keysAt data path, k ≠ [])
    (fuel : Nat) (hf : (keysAt data path).length < fuel) :
    (listPages data path n none fuel).flatten = keysAt data path ∧
      (keysAt data path).Nodup ∧
      (∀ c, goodCursor c → (listPathCore data path n c).length < n →
        ∀ last, (listPathCore data path n c).getLast? = some last →
          listPathCore data path n (some last) = []) := by
  refine ⟨?_, ?_, ?_⟩
  · rw [listPages_eq_pagesOfKeys]
    exact pagesOfKeys_flatten_eq (keysAt data path) hK hne n hn fuel none trivial hf
  · exact List.Pairwise.nodup hK
  · intro c hc hshort last hlast
    rw [listPathCore_eq_page] at hshort hlast ⊢
    exact next_page_empty (keysAt data path) hK hne n c hc last hshort hlast

/-- Witness for the amended C2 at the concrete four-child store with
pages of two keys. -/
theorem pagination_visits_all_once_app :
    (0 < 2) ∧ List.Pairwise (· < ·) (keysAt fakeDb4 ['/']) ∧
      (∀ k ∈ keysAt fakeDb4 ['/'], k ≠ []) ∧
      (keysAt fakeDb4 ['/']).length < 5 ∧
      ((listPages fakeDb4 ['/'] 2 none 5).flatten = keysAt fakeDb4 ['/'] ∧
        (keysAt fakeDb4 ['/']).Nodup ∧
        (∀ c, goodCursor c → (listPathCore fakeDb4 ['/'] 2 c).length < 2 →
          ∀ last, (listPathCore fakeDb4 ['/'] 2 c).getLast? = some last →
            listPathCore fakeDb4 ['/'] 2 (some last) = [])) :=
  ⟨by decide, by decide, by decide, by decide,
    pagination_visits_all_once fakeDb4 ['/'] 2 (by decide) (by decide) (by decide)
      5 (by decide)⟩

/-- C3 counterexample: on the store whose root enumerates keys out of
order, a single page of `listPath` is not strictly increasing. -/
theorem listPath_unsorted_page_cex :
    ¬ List.Pairwise (· < ·) (listPathCore fakeDbBA ['/'] 2 none) := by
  decide

/-- C3 (amended to paths whose stored key enumeration is strictly
increasing with non-empty keys): every page of `listPath` is strictly
increasing, and under the cursor discipline every key of the next page
is strictly greater than every key of the previous page, so no key
repeats across successive pages. -/
theorem listPath_pages_strictly_increasing (data : JSData) (path : List Char)
    (n : Nat) (hK : List.Pairwise (· < ·) (keysAt data path))
    (hne : ∀ k ∈ keysAt data path, k ≠ []) :
    (∀ c, goodCursor c → List.Pairwise (· < ·) (listPathCore data path n c)) ∧
      (∀ c, goodCursor c →
        ∀ last, (listPathCore data path n c).getLast? = some last →
          ∀ k ∈ listPathCore data path n (some last),
            ∀ j ∈ listPathCore data path n c, j < k) := by
  constructor
  · intro c _
    rw [listPathCore_eq_page]
    exact List.Pairwise.sublist
      ((List.take_sublist _ _).trans (applyStartAfter_sublist c _)) hK
  · intro c hc last hlast k hk j hj
    rw [listPathCore_eq_page] at hlast hk hj
    exact next_page_after (keysAt data path) hK hne n c last hlast k hk j hj

/-- Witness for the amended C3 at the concrete four-child store. -/
theorem listPath_pages_strictly_increasing_app :
    List.Pairwise (· < ·) (keysAt fakeDb4 ['/']) ∧
      (∀ k ∈ keysAt fakeDb4 ['/'], k ≠ []) ∧
      ((∀ c, goodCursor c →
          List.Pairwise (· < ·) (listPathCore fakeDb4 ['/'] 3 c)) ∧
        (∀ c, goodCursor c →
          ∀ last, (listPathCore fakeDb4 ['/'] 3 c).getLast? = some last →
            ∀ k ∈ listPathCore fakeDb4 ['/'] 3 (some last),
              ∀ j ∈ listPathCore fakeDb4 ['/'] 3 c, j < k)) :=
  ⟨by decide, by decide,
    listPath_pages_strictly_increasing fakeDb4 ['/'] 3 (by decide) (by decide)⟩

/-- Reflexivity of segment-path extension. -/
theorem segPre_refl (a : List (List Char)) : SegPre a a := ⟨[], List.append_nil a⟩

/-- A parent is an initial run of each of its children. -/
theorem segPre_of_child (q p : List (List Char)) (k : List Char)
    (h : SegPre (q ++ [k]) p) : SegPre q p := by
  obtain ⟨t, ht⟩ := h
  exact ⟨[k] ++ t, by rw [← List.append_assoc]; exact ht⟩

/-- A longer segment path is not an initial run of a shorter one. -/
theorem not_segPre_of_longer (a b : List (List Char))
    (h : b.length < a.length) : ¬ SegPre a b := by
  rintro ⟨t, ht⟩
  have := congrArg List.length ht
  simp [List.length_append] at this
  omega

/-- A child of a path is never an initial run of that path. -/
theorem not_segPre_child_self (q : List (List Char)) (k : List Char) :
    ¬ SegPre (q ++ [k]) q :=
  not_segPre_of_longer _ _ (by simp)

/-- Being apart is symmetric. -/
theorem segApart_symm (a b : List (List Char)) (h : SegApart a b) :
    SegApart b a := ⟨h.2, h.1⟩

/-- If a path extended by some run ends exactly one segment past
another path, the first path is an initial run of the second. -/
theorem segPre_of_append_single :
    ∀ (a b : List (List Char)) (t : List (List Char)) (k : List Char),
      a ++ t = b ++ [k] → a.length ≤ b.length → SegPre a b := by
  intro a
  induction a with
  | nil => intro b t k _ _; exact ⟨b, rfl⟩
  | cons x a ih =>
    intro b t k h hlen
    cases b with
    | nil => simp at hlen
    | cons y b =>
      simp only [List.cons_append] at h
      obtain ⟨hxy, h2⟩ := List.cons.inj h
      obtain ⟨u, hu⟩ := ih b t k h2 (by simpa using hlen)
      exact ⟨u, by rw [hxy, List.cons_append, hu]⟩

/-- Distinct child keys give apart child paths. -/
theorem segApart_children (q : List (List Char)) (k1 k2 : List Char)
    (h : k1 ≠ k2) : SegApart (q ++ [k1]) (q ++ [k2]) := by
  constructor
  · rintro ⟨t, ht⟩
    rw [List.append_assoc] at ht
    have h2 : k1 :: t = [k2] := by
      have := congrArg (List.drop q.length) ht
      simpa [List.drop_left] using this
    exact h (List.cons.inj h2).1
  · rintro ⟨t, ht⟩
    rw [List.append_assoc] at ht
    have h2 : k2 :: t = [k1] := by
      have := congrArg (List.drop q.length) ht
      simpa [List.drop_left] using this
    exact h ((List.cons.inj h2).1).symm

/-- A successful lookup in a list of well-formed entries is well-formed. -/
theorem wf_of_lookup :
    ∀ (entries : List (List Char × JSData)),
      (∀ kv ∈ entries, WF kv.2) →
      ∀ (p : List Char) (v : JSData), List.lookup p entries = some v → WF v := by
  intro entries
  induction entries with
  | nil => intro _ p v hl; simp [List.lookup] at hl
  | cons kv es ih =>
    intro h p v hl
    obtain ⟨k, w⟩ := kv
    simp only [List.lookup] at hl
    by_cases hb : (p == k) = true
    · rw [hb] at hl
      simp at hl
      exact hl ▸ h (k, w) (by simp)
    · rw [Bool.not_eq_true] at hb
      rw [hb] at hl
      simp at hl
      exact ih (fun kv hkv => h kv (List.mem_cons_of_mem _ hkv)) p v hl

/-- Every value reached by the `_dataAtpath` walk from a well-formed
starting point is well-formed. -/
theorem wf_foldl_pathStep :
    ∀ (segs : List (List Char)) (d : Option JSData),
      (∀ v, d = some v → WF v) →
      ∀ v, segs.foldl pathStep d = some v → WF v := by
  intro segs
  induction segs with
  | nil => intro d hd v hv; exact hd v hv
  | cons s rest ih =>
    intro d hd v hv
    refine ih (pathStep d s) ?_ v hv
    intro w hw
    unfold pathStep at hw
    by_cases hc : (jsTruthy d && !s.isEmpty) = true
    · rw [if_pos hc] at hw
      cases d with
      | none => simp at hw
      | some val =>
        cases val with
        | leaf m => simp at hw
        | obj entries =>
          cases hd (.obj entries) rfl with
          | obj _ hsort hne hval => exact wf_of_lookup entries hval s w hw
    · rw [if_neg hc] at hw
      exact hd w hw

/-- At every segment path of a well-formed store, the served key list
is strictly increasing and all its keys are non-empty. -/
theorem keysAtSegs_sorted (data : JSData) (hw : WF data)
    (segs : List (List Char)) :
    List.Pairwise (· < ·) (keysAtSegs data segs) ∧
      ∀ k ∈ keysAtSegs data segs, k ≠ ([] : List Char) := by
  unfold keysAtSegs
  cases hd : dataAtSegs data segs with
  | none => simp [jsTruthy]
  | some v =>
    have hv : WF v := by
      refine wf_foldl_pathStep segs (some data) ?_ v hd
      intro w hw2
      injection hw2 with h2
      exact h2 ▸ hw
    cases hv with
    | leaf m =>
      by_cases hm : jsTruthy (some (.leaf m)) = true
      · simp [hm, objectKeys]
      · rw [Bool.not_eq_true] at hm
        simp [hm]
    | obj entries hsort hne hval =>
      show List.Pairwise (· < ·) (entries.map Prod.fst) ∧
        ∀ k ∈ entries.map Prod.fst, k ≠ ([] : List Char)
      exact ⟨hsort, hne⟩

/-- The pager issues at least one listing call whenever it has fuel. -/
theorem pagesOfKeys_ne_nil (K : List (List Char)) (n : Nat)
    (c : Option (List Char)) (fuel : Nat) (hf : 0 < fuel) :
    pagesOfKeys K n c fuel ≠ [] := by
  cases fuel with
  | zero => omega
  | succ fuel =>
    simp only [pagesOfKeys]
    by_cases h : (List.take n (applyStartAfter c K)).length < n
    · rw [if_pos h]; simp
    · rw [if_neg h]
      cases hl : (List.take n (applyStartAfter c K)).getLast? with
      | none => simp
      | some last => simp

/-- The keys observed during fan-out at a segment path of a
well-formed store are strictly increasing (hence pairwise distinct)
and all non-empty. -/
theorem fanout_keys_facts (data : JSData) (hw : WF data)
    (segs : List (List Char)) (n pfuel : Nat) :
    List.Pairwise (· < ·) ((pagesOfKeys (keysAtSegs data segs) n none pfuel).flatten) ∧
      ∀ k ∈ (pagesOfKeys (keysAtSegs data segs) n none pfuel).flatten,
        k ≠ ([] : List Char) := by
  obtain ⟨hsort, hne⟩ := keysAtSegs_sorted data hw segs
  have hsub := pagesOfKeys_flatten_sublist (keysAtSegs data segs) hsort hne n pfuel none trivial
  have hsub2 : ((pagesOfKeys (keysAtSegs data segs) n none pfuel).flatten).Sublist
      (keysAtSegs data segs) := hsub
  exact ⟨List.Pairwise.sublist hsub2 hsort,
    fun k hk => hne k (List.Sublist.mem hk hsub2)⟩

/-- Unfolding of an orchestrator step whose delete succeeds. -/
theorem runOrch_cons_success (del : List (List Char) → DResult) (data : JSData)
    (n maxAttempts pfuel : Nat) (p : List (List Char)) (a : Nat)
    (rest : List (List (List Char) × Nat)) (fuel : Nat)
    (hdel : del p = .success) :
    runOrch del data n maxAttempts pfuel ((p, a) :: rest) (fuel + 1) =
      .attempt p :: .deleted p ::
        runOrch del data n maxAttempts pfuel rest fuel := by
  rw [runOrch, hdel]

/-- Unfolding of an orchestrator step whose delete fails fatally. -/
theorem runOrch_cons_fatal (del : List (List Char) → DResult) (data : JSData)
    (n maxAttempts pfuel : Nat) (p : List (List Char)) (a : Nat)
    (rest : List (List (List Char) × Nat)) (fuel : Nat)
    (hdel : del p = .fatal) :
    runOrch del data n maxAttempts pfuel ((p, a) :: rest) (fuel + 1) =
      .attempt p :: .failed p ::
        runOrch del data n maxAttempts pfuel rest fuel := by
  rw [runOrch, hdel]

/-- Unfolding of an orchestrator step whose delete fails transiently
with attempts remaining. -/
theorem runOrch_cons_retry (del : List (List Char) → DResult) (data : JSData)
    (n maxAttempts pfuel : Nat) (p : List (List Char)) (a : Nat)
    (rest : List (List (List Char) × Nat)) (fuel : Nat)
    (hdel : del p = .transient) (hret : a + 1 < maxAttempts) :
    runOrch del data n maxAttempts pfuel ((p, a) :: rest) (fuel + 1) =
      .attempt p :: .retried p ::
        runOrch del data n maxAttempts pfuel (rest ++ [(p, a + 1)]) fuel := by
  rw [runOrch, hdel]
  simp [hret]

/-- Unfolding of an orchestrator step whose delete fails transiently
with attempts exhausted. -/
theorem runOrch_cons_exhaust (del : List (List Char) → DResult) (data : JSData)
    (n maxAttempts pfuel : Nat) (p : List (List Char)) (a : Nat)
    (rest : List (List (List Char) × Nat)) (fuel : Nat)
    (hdel : del p = .transient) (hret : ¬ a + 1 < maxAttempts) :
    runOrch del data n maxAttempts pfuel ((p, a) :: rest) (fuel + 1) =
      .attempt p :: .failed p ::
        runOrch del data n maxAttempts pfuel rest fuel := by
  rw [runOrch, hdel]
  simp [hret]

/-- Unfolding of an orchestrator step whose delete reports the payload
too large: the path fans out. -/
theorem runOrch_cons_ptl (del : List (List Char) → DResult) (data : JSData)
    (n maxAttempts pfuel : Nat) (p : List (List Char)) (a : Nat)
    (rest : List (List (List Char) × Nat)) (fuel : Nat)
    (hdel : del p = .payloadTooLarge) :
    runOrch del data n maxAttempts pfuel ((p, a) :: rest) (fuel + 1) =
      .attempt p ::
        ((pagesOfKeys (keysAtSegs data p) n none pfuel).map
            (fun _ => OEvent.listCall p) ++
          (.fannedOut p (pagesOfKeys (keysAtSegs data p) n none pfuel).flatten.length ::
            runOrch del data n maxAttempts pfuel
              (rest ++ (pagesOfKeys (keysAtSegs data p) n none pfuel).flatten.map
                (fun k => (p ++ [k], 0))) fuel)) := by
  rw [runOrch, hdel]

/-- Every path attempted during a run extends a path of the starting
work queue. -/
theorem attempt_from_queue (del : List (List Char) → DResult) (data : JSData)
    (n maxAttempts pfuel : Nat) :
    ∀ (fuel : Nat) (queue : List (List (List Char) × Nat)) (p : List (List Char)),
      OEvent.attempt p ∈ runOrch del data n maxAttempts pfuel queue fuel →
      ∃ x ∈ queue, SegPre x.1 p := by
  intro fuel
  induction fuel with
  | zero =>
    intro queue p h
    cases queue with
    | nil => simp [runOrch] at h
    | cons job rest => simp [runOrch] at h
  | succ fuel ih =>
    intro queue p h
    cases queue with
    | nil => simp [runOrch] at h
    | cons job rest =>
      obtain ⟨q, a⟩ := job
      cases hdel : del q with
      | success =>
        rw [runOrch_cons_success del data n maxAttempts pfuel q a rest fuel hdel] at h
        rcases List.mem_cons.mp h with h | h
        · injection h with h2
          subst h2
          exact ⟨(p, a), List.mem_cons_self _ _, segPre_refl p⟩
        rcases List.mem_cons.mp h with h | h
        · exact absurd h (by simp)
        · obtain ⟨x, hx, hpre⟩ := ih rest p h
          exact ⟨x, List.mem_cons_of_mem _ hx, hpre⟩
      | fatal =>
        rw [runOrch_cons_fatal del data n maxAttempts pfuel q a rest fuel hdel] at h
        rcases List.mem_cons.mp h with h | h
        · injection h with h2
          subst h2
          exact ⟨(p, a), List.mem_cons_self _ _, segPre_refl p⟩
        rcases List.mem_cons.mp h with h | h
        · exact absurd h (by simp)
        · obtain ⟨x, hx, hpre⟩ := ih rest p h
          exact ⟨x, List.mem_cons_of_mem _ hx, hpre⟩
      | transient =>
        by_cases hret : a + 1 < maxAttempts
        · rw [runOrch_cons_retry del data n maxAttempts pfuel q a rest fuel hdel hret] at h
          rcases List.mem_cons.mp h with h | h
          · injection h with h2
            subst h2
            exact ⟨(p, a), List.mem_cons_self _ _, segPre_refl p⟩
          rcases List.mem_cons.mp h with h | h
          · exact absurd h (by simp)
          · obtain ⟨x, hx, hpre⟩ := ih (rest ++ [(q, a + 1)]) p h
            rcases List.mem_append.mp hx with hx | hx
            · exact ⟨x, List.mem_cons_of_mem _ hx, hpre⟩
            · have hx2 : x = (q, a + 1) := List.mem_singleton.mp hx
              subst hx2
              exact ⟨(q, a), List.mem_cons_self _ _, hpre⟩
        · rw [runOrch_cons_exhaust del data n maxAttempts pfuel q a rest fuel hdel hret] at h
          rcases List.mem_cons.mp h with h | h
          · injection h with h2
            subst h2
            exact ⟨(p, a), List.mem_cons_self _ _, segPre_refl p⟩
          rcases List.mem_cons.mp h with h | h
          · exact absurd h (by simp)
          · obtain ⟨x, hx, hpre⟩ := ih rest p h
            exact ⟨x, List.mem_cons_of_mem _ hx, hpre⟩
      | payloadTooLarge =>
        rw [runOrch_cons_ptl del data n maxAttempts pfuel q a rest fuel hdel] at h
        rcases List.mem_cons.mp h with h | h
        · injection h with h2
          subst h2
          exact ⟨(p, a), List.mem_cons_self _ _, segPre_refl p⟩
        rcases List.mem_append.mp h with h | h
        · obtain ⟨pg, _, heq⟩ := List.mem_map.mp h
          exact absurd heq (by simp)
        rcases List.mem_cons.mp h with h | h
        · exact absurd h (by simp)
        · obtain ⟨x, hx, hpre⟩ := ih _ p h
          rcases List.mem_append.mp hx with hx | hx
          · exact ⟨x, List.mem_cons_of_mem _ hx, hpre⟩
          · obtain ⟨k, _, hk⟩ := List.mem_map.mp hx
            subst hk
            exact ⟨(q, a), List.mem_cons_self _ _, segPre_of_child q p k hpre⟩

/-- A path apart from a parent is also apart from each of the
parent's children. -/
theorem segApart_child_of_apart (y q : List (List Char)) (k : List Char)
    (h : SegApart q y) : SegApart (q ++ [k]) y := by
  constructor
  · rintro ⟨t, ht⟩
    exact h.1 ⟨[k] ++ t, by rw [← List.append_assoc]; exact ht⟩
  · rintro ⟨t, ht⟩
    rcases t with _ | ⟨u, t⟩
    · rw [List.append_nil] at ht
      exact h.1 ⟨[k], ht.symm⟩
    · have hlen : y.length ≤ q.length := by
        have := congrArg List.length ht
        simp [List.length_append] at this
        omega
      exact h.2 (segPre_of_append_single y q (u :: t) k ht hlen)

/-- On a well-formed store, a path whose delete reports the payload
too large is attempted at most once in any run started from a work
queue of pairwise apart paths. -/
theorem runOrch_attempt_count (del : List (List Char) → DResult) (data : JSData)
    (n maxAttempts pfuel : Nat) (hw : WF data) (p : List (List Char))
    (hdel : del p = .payloadTooLarge) :
    ∀ (fuel : Nat) (queue : List (List (List Char) × Nat)),
      List.Pairwise (fun x y => SegApart x.1 y.1) queue →
      (runOrch del data n maxAttempts pfuel queue fuel).count (OEvent.attempt p) ≤ 1 := by
  intro fuel
  induction fuel with
  | zero =>
    intro queue hinv
    cases queue with
    | nil => simp [runOrch]
    | cons job rest => simp [runOrch]
  | succ fuel ih =>
    intro queue hinv
    cases queue with
    | nil => simp [runOrch]
    | cons job rest =>
      obtain ⟨q, a⟩ := job
      rcases List.pairwise_cons.mp hinv with ⟨hqrest, hrest⟩
      by_cases hqp : q = p
      · subst hqp
        rw [runOrch_cons_ptl del data n maxAttempts pfuel q a rest fuel hdel]
        have hrec : OEvent.attempt q ∉ runOrch del data n maxAttempts pfuel
            (rest ++ (pagesOfKeys (keysAtSegs data q) n none pfuel).flatten.map
              (fun k => (q ++ [k], 0))) fuel := by
          intro hmem
          obtain ⟨x, hx, hpre⟩ :=
            attempt_from_queue del data n maxAttempts pfuel fuel _ q hmem
          rcases List.mem_append.mp hx with hx | hx
          · exact (hqrest x hx).2 hpre
          · obtain ⟨k, _, hk⟩ := List.mem_map.mp hx
            subst hk
            exact not_segPre_child_self q k hpre
        have hmap0 : ((pagesOfKeys (keysAtSegs data q) n none pfuel).map
            (fun _ => OEvent.listCall q)).count (OEvent.attempt q) = 0 := by
          rw [List.count_eq_zero]
          intro hmem
          obtain ⟨_, _, heq⟩ := List.mem_map.mp hmem
          exact absurd heq (by simp)
        rw [List.count_cons_self, List.count_append, hmap0,
          List.count_cons_of_ne (by simp), List.count_eq_zero.mpr hrec]
      · have hne1 : OEvent.attempt p ≠ OEvent.attempt q := by
          simp only [ne_eq, OEvent.attempt.injEq]
          exact fun hc => hqp hc.symm
        cases hdel2 : del q with
        | success =>
          rw [runOrch_cons_success del data n maxAttempts pfuel q a rest fuel hdel2]
          rw [List.count_cons_of_ne hne1, List.count_cons_of_ne (by simp)]
          exact ih rest hrest
        | fatal =>
          rw [runOrch_cons_fatal del data n maxAttempts pfuel q a rest fuel hdel2]
          rw [List.count_cons_of_ne hne1, List.count_cons_of_ne (by simp)]
          exact ih rest hrest
        | transient =>
          by_cases hret : a + 1 < maxAttempts
          · rw [runOrch_cons_retry del data n maxAttempts pfuel q a rest fuel hdel2 hret]
            rw [List.count_cons_of_ne hne1, List.count_cons_of_ne (by simp)]
            refine ih (rest ++ [(q, a + 1)]) ?_
            rw [List.pairwise_append]
            refine ⟨hrest, by simp, ?_⟩
            intro y hy z hz
            rw [List.mem_singleton] at hz
            subst hz
            exact segApart_symm _ _ (hqrest y hy)
          · rw [runOrch_cons_exhaust del data n maxAttempts pfuel q a rest fuel hdel2 hret]
            rw [List.count_cons_of_ne hne1, List.count_cons_of_ne (by simp)]
            exact ih rest hrest
        | payloadTooLarge =>
          rw [runOrch_cons_ptl del data n maxAttempts pfuel q a rest fuel hdel2]
          have hmapc : ((pagesOfKeys (keysAtSegs data q) n none pfuel).map
              (fun _ => OEvent.listCall q)).count (OEvent.attempt p) = 0 := by
            rw [List.count_eq_zero]
            intro hmem
            obtain ⟨_, _, heq⟩ := List.mem_map.mp hmem
            exact absurd heq (by simp)
          rw [List.count_cons_of_ne hne1, List.count_append, hmapc,
            List.count_cons_of_ne (by simp)]
          obtain ⟨hksort, hkne⟩ := fanout_keys_facts data hw q n pfuel
          have hinv2 : List.Pairwise (fun x y => SegApart x.1 y.1)
              (rest ++ (pagesOfKeys (keysAtSegs data q) n none pfuel).flatten.map
                (fun k => (q ++ [k], 0))) := by
            rw [List.pairwise_append]
            refine ⟨hrest, ?_, ?_⟩
            · refine List.Pairwise.map _ ?_ hksort
              intro k1 k2 hk12
              exact segApart_children q k1 k2 (ne_of_lt hk12)
            · intro y hy z hz
              obtain ⟨k, _, hk⟩ := List.mem_map.mp hz
              subst hk
              exact segApart_symm _ _
                (segApart_child_of_apart y.1 q k (hqrest y hy))
          have hrec := ih _ hinv2
          omega

/-- Whenever a path whose delete reports the payload too large is
attempted, the attempt event is immediately followed in the trace by
a listing call on that path: the outcome is fan-out, starting with
the pager's first page request. -/
theorem runOrch_ptl_listCall (del : List (List Char) → DResult) (data : JSData)
    (n maxAttempts pfuel : Nat) (hpf : 0 < pfuel) (p : List (List Char))
    (hdel : del p = .payloadTooLarge) :
    ∀ (fuel : Nat) (queue : List (List (List Char) × Nat)),
      OEvent.attempt p ∈ runOrch del data n maxAttempts pfuel queue fuel →
      ∃ l1 l2, runOrch del data n maxAttempts pfuel queue fuel =
        l1 ++ OEvent.attempt p :: OEvent.listCall p :: l2 := by
  intro fuel
  induction fuel with
  | zero =>
    intro queue h
    cases queue with
    | nil => simp [runOrch] at h
    | cons job rest => simp [runOrch] at h
  | succ fuel ih =>
    intro queue h
    cases queue with
    | nil => simp [runOrch] at h
    | cons job rest =>
      obtain ⟨q, a⟩ := job
      by_cases hqp : q = p
      · subst hqp
        rw [runOrch_cons_ptl del data n maxAttempts pfuel q a rest fuel hdel]
        obtain ⟨pg, pgs, hpgs⟩ :
            ∃ pg pgs, pagesOfKeys (keysAtSegs data q) n none pfuel = pg :: pgs := by
          cases hp : pagesOfKeys (keysAtSegs data q) n none pfuel with
          | nil => exact absurd hp (pagesOfKeys_ne_nil _ _ _ _ hpf)
          | cons pg pgs => exact ⟨pg, pgs, rfl⟩
        rw [hpgs]
        refine ⟨[], pgs.map (fun _ => OEvent.listCall q) ++
          (OEvent.fannedOut q (pg :: pgs).flatten.length ::
            runOrch del data n maxAttempts pfuel
              (rest ++ (pg :: pgs).flatten.map (fun k => (q ++ [k], 0))) fuel), ?_⟩
        simp
      · have hne1 : OEvent.attempt p ≠ OEvent.attempt q := by
          simp only [ne_eq, OEvent.attempt.injEq]
          exact fun hc => hqp hc.symm
        cases hdel2 : del q with
        | success =>
          rw [runOrch_cons_success del data n maxAttempts pfuel q a rest fuel hdel2] at h ⊢
          have hrec : OEvent.attempt p ∈
              runOrch del data n maxAttempts pfuel rest fuel := by
            rcases List.mem_cons.mp h with h | h
            · exact absurd h hne1
            rcases List.mem_cons.mp h with h | h
            · exact absurd h (by simp)
            · exact h
          obtain ⟨l1, l2, hl⟩ := ih rest hrec
          exact ⟨OEvent.attempt q :: OEvent.deleted q :: l1, l2, by simp [hl]⟩
        | fatal =>
          rw [runOrch_cons_fatal del data n maxAttempts pfuel q a rest fuel hdel2] at h ⊢
          have hrec : OEvent.attempt p ∈
              runOrch del data n maxAttempts pfuel rest fuel := by
            rcases List.mem_cons.mp h with h | h
            · exact absurd h hne1
            rcases List.mem_cons.mp h with h | h
            · exact absurd h (by simp)
            · exact h
          obtain ⟨l1, l2, hl⟩ := ih rest hrec
          exact ⟨OEvent.attempt q :: OEvent.failed q :: l1, l2, by simp [hl]⟩
        | transient =>
          by_cases hret : a + 1 < maxAttempts
          · rw [runOrch_cons_retry del data n maxAttempts pfuel q a rest fuel hdel2 hret]
              at h ⊢
            have hrec : OEvent.attempt p ∈
                runOrch del data n maxAttempts pfuel (rest ++ [(q, a + 1)]) fuel := by
              rcases List.mem_cons.mp h with h | h
              · exact absurd h hne1
              rcases List.mem_cons.mp h with h | h
              · exact absurd h (by simp)
              · exact h
            obtain ⟨l1, l2, hl⟩ := ih (rest ++ [(q, a + 1)]) hrec
            exact ⟨OEvent.attempt q :: OEvent.retried q :: l1, l2, by simp [hl]⟩
          · rw [runOrch_cons_exhaust del data n maxAttempts pfuel q a rest fuel hdel2 hret]
              at h ⊢
            have hrec : OEvent.attempt p ∈
                runOrch del data n maxAttempts pfuel rest fuel := by
              rcases List.mem_cons.mp h with h | h
              · exact absurd h hne1
              rcases List.mem_cons.mp h with h | h
              · exact absurd h (by simp)
              · exact h
            obtain ⟨l1, l2, hl⟩ := ih rest hrec
            exact ⟨OEvent.attempt q :: OEvent.failed q :: l1, l2, by simp [hl]⟩
        | payloadTooLarge =>
          rw [runOrch_cons_ptl del data n maxAttempts pfuel q a rest fuel hdel2] at h ⊢
          have hrec : OEvent.attempt p ∈
              runOrch del data n maxAttempts pfuel
                (rest ++ (pagesOfKeys (keysAtSegs data q) n none pfuel).flatten.map
                  (fun k => (q ++ [k], 0))) fuel := by
            rcases List.mem_cons.mp h with h | h
            · exact absurd h hne1
            rcases List.mem_append.mp h with h | h
            · obtain ⟨_, _, heq⟩ := List.mem_map.mp h
              exact absurd heq (by simp)
            rcases List.mem_cons.mp h with h | h
            · exact absurd h (by simp)
            · exact h
          obtain ⟨l1, l2, hl⟩ := ih _ hrec
          refine ⟨OEvent.attempt q ::
            ((pagesOfKeys (keysAtSegs data q) n none pfuel).map
              (fun _ => OEvent.listCall q) ++
              (OEvent.fannedOut q
                (pagesOfKeys (keysAtSegs data q) n none pfuel).flatten.length :: l1)),
            l2, ?_⟩
          rw [hl]
          simp

/-- The four-child test store satisfies the data-model invariants. -/
theorem wf_fakeDb4 : WF fakeDb4 := by
  refine WF.obj _ (by decide) (by decide) ?_
  intro kv hkv
  fin_cases hkv <;> exact WF.leaf _

/-- C7 (spec-modelled): in an orchestrator run started from a root
job on a store satisfying the data-model invariants, a path whose
delete attempt returns `payloadTooLarge` is attempted as a direct
delete at most once — never retried — and its attempt is immediately
followed by a listing call on that path: the outcome is always
fan-out. -/
theorem orchestrator_ptl_fans_out (del : List (List Char) → DResult)
    (data : JSData) (n maxAttempts pfuel fuel : Nat) (root : List (List Char))
    (hw : WF data) (hpf : 0 < pfuel) (p : List (List Char))
    (hdel : del p = .payloadTooLarge) :
    (runOrch del data n maxAttempts pfuel [(root, 0)] fuel).count
        (OEvent.attempt p) ≤ 1 ∧
      (OEvent.attempt p ∈ runOrch del data n maxAttempts pfuel [(root, 0)] fuel →
        ∃ l1 l2, runOrch del data n maxAttempts pfuel [(root, 0)] fuel =
          l1 ++ OEvent.attempt p :: OEvent.listCall p :: l2) :=
  ⟨runOrch_attempt_count del data n maxAttempts pfuel hw p hdel fuel [(root, 0)]
      (by simp),
    fun h => runOrch_ptl_listCall del data n maxAttempts pfuel hpf p hdel fuel
      [(root, 0)] h⟩

/-- Witness for C7: the four-child store, a transport for which the
root is too large, and the root job. -/
theorem orchestrator_ptl_fans_out_app :
    WF fakeDb4 ∧ 0 < 3 ∧ delRootTooLarge [] = DResult.payloadTooLarge ∧
      ((runOrch delRootTooLarge fakeDb4 2 3 3 [([], 0)] 10).count
          (OEvent.attempt []) ≤ 1 ∧
        (OEvent.attempt [] ∈ runOrch delRootTooLarge fakeDb4 2 3 3 [([], 0)] 10 →
          ∃ l1 l2, runOrch delRootTooLarge fakeDb4 2 3 3 [([], 0)] 10 =
            l1 ++ OEvent.attempt [] :: OEvent.listCall [] :: l2)) :=
  ⟨wf_fakeDb4, by decide, rfl,
    orchestrator_ptl_fans_out delRootTooLarge fakeDb4 2 3 3 10 [] wf_fakeDb4
      (by decide) [] rfl⟩
